import Mathlib

/-!
Shallow embedding of `xblock_jupyter_viewer/jupyter_utils.py`.

Strings are modelled as `List Char`; a notebook cell is a record holding its
`source` text, and a notebook is the ordered list of its cells.  Python's
substring test (`in`), `str.replace`, list slicing, and the two regular
expressions used by the module (`(<a .+?>)` and `<img.+src=\"(.+?)\"`, with
their greedy/lazy backtracking behaviour and `.` not matching a newline) are
embedded as executable functions.  Warning diagnostics emitted through the
logger are returned explicitly as a list of messages.
-/

namespace JupyterUtils

/-- A notebook cell: only the `source` text field is relevant to the code. -/
structure Cell where
  source : List Char
deriving DecidableEq

/-- A notebook: the ordered sequence of its cells (`nb['cells']`). -/
structure Notebook where
  cells : List Cell
deriving DecidableEq

/-- Python's substring test `pat in s`: some contiguous run of `s` equals
`pat` (the empty string is contained in every string). -/
def containsSub (pat : List Char) : List Char → Bool
  | [] => pat.isPrefixOf []
  | c :: cs => pat.isPrefixOf (c :: cs) || containsSub pat cs

/-- Python `s.replace(pat, rep)` for a non-empty `pat`: scan left to right;
at each position either the pattern matches (emit `rep` and skip the
remaining `pat.length - 1` pattern characters) or the character is copied.
The skip counter makes the recursion structural on the string. -/
def replaceAllAux (pat rep : List Char) : Nat → List Char → List Char
  | _, [] => []
  | 0, c :: cs =>
    if !pat.isEmpty && pat.isPrefixOf (c :: cs) then
      rep ++ replaceAllAux pat rep (pat.length - 1) cs
    else
      c :: replaceAllAux pat rep 0 cs
  | skip + 1, _ :: cs => replaceAllAux pat rep skip cs

/-- Python `s.replace(pat, rep)` for a non-empty `pat`. -/
def replaceAll (pat rep s : List Char) : List Char :=
  replaceAllAux pat rep 0 s

/-- Python `s.replace("", rep)`: `rep` is inserted before every character and
once at the end (`"ab".replace("", "X") = "XaXbX"`). -/
def emptyPatReplace (rep : List Char) : List Char → List Char
  | [] => rep
  | c :: cs => rep ++ c :: emptyPatReplace rep cs

/-- Python `s.replace(pat, rep)` in full generality. -/
def pyReplace (pat rep s : List Char) : List Char :=
  if pat = [] then emptyPatReplace rep s else replaceAll pat rep s

/-- Python `m.split('/')[-1]`: the substring after the last `/` (the whole
string when no `/` occurs). -/
def splitSlashLast (m : List Char) : List Char :=
  ((m.reverse.takeWhile (fun c => c != '/')).reverse)

/-! ### Regex machinery

Both regexes are scanned with CPython `re` semantics: the scan moves left to
right; `.` matches any character except `'\n'`; a greedy `.+` prefers the
longest gap and backtracks downward, a lazy `.+?` prefers the shortest
expansion; after a match the scan resumes at the match's end. -/

/-- Scan forward to the first occurrence of `stop`, failing at a newline or at
the end of input; returns the characters before `stop` and those after it. -/
def scanStop (stop : Char) : List Char → Option (List Char × List Char)
  | [] => none
  | c :: cs =>
    if c = stop then some ([], cs)
    else if c = '\n' then none
    else
      match scanStop stop cs with
      | some (mid, rest) => some (c :: mid, rest)
      | none => none

/-- Lazy `(.+?)\"`: one non-newline character, then everything up to the first
closing quote; returns the captured group and the input after the quote. -/
def lazyQuote : List Char → Option (List Char × List Char)
  | [] => none
  | c :: cs =>
    if c = '\n' then none
    else
      match scanStop '"' cs with
      | some (mid, rest) => some (c :: mid, rest)
      | none => none

/-- The literal `src=\"` followed by the lazy quoted group, anchored at the
current position. -/
def srcHere : List Char → Option (List Char × List Char)
  | 's' :: 'r' :: 'c' :: '=' :: '"' :: cs => lazyQuote cs
  | _ => none

/-- Greedy backtracking for the `.*` tail of `.+` before `src=\"`: try the
deepest position first (consuming only non-newline characters), falling back
toward the current position. -/
def tryDeep : List Char → Option (List Char × List Char)
  | [] => none
  | c :: cs => (if c = '\n' then none else tryDeep cs) <|> srcHere (c :: cs)

/-- One attempt of `<img.+src=\"(.+?)\"` anchored at the current position:
the literal `<img`, at least one non-newline character (greedy), `src=\"`,
then the lazy group.  Returns the captured group and the input after the
match. -/
def matchImg : List Char → Option (List Char × List Char)
  | '<' :: 'i' :: 'm' :: 'g' :: c :: cs =>
    if c = '\n' then none else tryDeep cs
  | _ => none

/-- `re.findall(r'<img.+src=\"(.+?)\"', s)`: leftmost non-overlapping
matches, resuming after each match's closing quote.  The fuel argument bounds
the number of scan steps; every step consumes at least one character, so fuel
equal to the input length is always sufficient. -/
def findallImgAux : Nat → List Char → List (List Char)
  | 0, _ => []
  | _ + 1, [] => []
  | fuel + 1, c :: cs =>
    match matchImg (c :: cs) with
    | some (g, rest) => g :: findallImgAux fuel rest
    | none => findallImgAux fuel cs

/-- All `src` groups found by `re.findall(r'<img.+src=\"(.+?)\"', s)`. -/
def findallImg (s : List Char) : List (List Char) :=
  findallImgAux s.length s

/-- One attempt of `<a .+?>` anchored at the current position: the literal
`<a ` (with its mandatory space), at least one non-newline character, lazily
up to the first `>`.  Returns the whole matched tag and the input after it. -/
def matchATag : List Char → Option (List Char × List Char)
  | '<' :: 'a' :: ' ' :: c :: cs =>
    if c = '\n' then none
    else
      match scanStop '>' cs with
      | some (mid, rest) => some ('<' :: 'a' :: ' ' :: c :: (mid ++ ['>']), rest)
      | none => none
  | _ => none

/-- The injected attribute text of `_match_fn`. -/
def targetBlankAttr : List Char := " target=\"_blank\" ".data

/-- `_match_fn`: the match's first two characters, the injected attribute,
then the match's characters from index 3 on. -/
def matchFn (m : List Char) : List Char :=
  m.take 2 ++ targetBlankAttr ++ m.drop 3

/-- `re.sub('(<a .+?>)', _match_fn, s)`: scan left to right, rewriting each
match with `_match_fn` and resuming after it.  Fuel as in `findallImgAux`. -/
def subATagsAux : Nat → List Char → List Char
  | 0, l => l
  | _ + 1, [] => []
  | fuel + 1, c :: cs =>
    match matchATag (c :: cs) with
    | some (m, rest) => matchFn m ++ subATagsAux fuel rest
    | none => c :: subATagsAux fuel cs

/-- `insert_target_blank`: adds a `target="_blank"` attribute to every
matched anchor open tag. -/
def insert_target_blank (raw_html : List Char) : List Char :=
  subATagsAux raw_html.length raw_html

/-- The fixed container selector of `remove_box_shadow`. -/
def notebookContainer : List Char := "#notebook-container".data

/-- `remove_box_shadow`: replaces every occurrence of `#notebook-container`
with `#doesnotexisthere` (the `log.debug` call has no effect on the value). -/
def remove_box_shadow (raw_html : List Char) : List Char :=
  pyReplace notebookContainer "#doesnotexisthere".data raw_html

/-! ### ImageReplacement -/

/-- `ImageReplacement.process_cell`: the matches of the `img src` regex are
computed once from the cell's source; then, for each match in order, every
literal occurrence of the matched value is replaced by `images_url` followed
by the part of the value after its last `/`. -/
def imageReplacement_process_cell (images_url : List Char) (cell : Cell) : Cell :=
  let ms := findallImg cell.source
  { source :=
      ms.foldl
        (fun src m => pyReplace m (images_url ++ splitSlashLast m) src)
        cell.source }

/-! ### RemoveCustomCSS -/

/-- The marker text `RemoveCustomCSS` scans for. -/
def search_text : List Char := "from IPython.core.display import HTML".data

/-- The mutable state of a `RemoveCustomCSS` visitor. -/
structure RemoveCustomCSSState where
  found : Bool
  cell_num : Nat
deriving DecidableEq

/-- `RemoveCustomCSS.process_cell`: while no match has been found, a cell
containing the marker sets `found` (without incrementing the counter) and any
other cell increments the counter; after a match the method does nothing. -/
def removeCustomCSS_process_cell (st : RemoveCustomCSSState) (cell : Cell) :
    RemoveCustomCSSState :=
  if !st.found then
    if containsSub search_text cell.source then
      { st with found := true }
    else
      { st with cell_num := st.cell_num + 1 }
  else st

/-- `RemoveCustomCSS.finish`: delete the recorded cell when one was found. -/
def removeCustomCSS_finish (nb : Notebook) (st : RemoveCustomCSSState) :
    Notebook :=
  if st.found then { cells := nb.cells.eraseIdx st.cell_num } else nb

/-- `preprocess(nb, [RemoveCustomCSS(nb)])`: the single visitor's
`process_cell` is run on each cell in order, then its `finish` runs. -/
def preprocess_removeCustomCSS (nb : Notebook) : Notebook :=
  removeCustomCSS_finish nb
    (nb.cells.foldl removeCustomCSS_process_cell ⟨false, 0⟩)

/-! ### filter_start_end -/

/-- Python truthiness of an optional tag: `None` and the empty string are
falsy. -/
def tagTruthy : Option (List Char) → Bool
  | none => false
  | some t => !t.isEmpty

/-- The condition `tag and tag in cell['source']`. -/
def tagMatches (tag : Option (List Char)) (cell : Cell) : Bool :=
  match tag with
  | none => false
  | some t => !t.isEmpty && containsSub t cell.source

/-- The scan loop of `filter_start_end`: enumerate the cells from index `i`,
threading the two recorded indices `s` and `e` exactly as the Python loop
does. -/
def scanTags (start_tag end_tag : Option (List Char)) (num_cells : Nat) :
    List Cell → Nat → Nat → Nat → Nat × Nat
  | [], _, s, e => (s, e)
  | c :: cs, i, s, e =>
    let s' := if tagMatches start_tag c && (s == 0) then i else s
    let e' := if tagMatches end_tag c && (e == num_cells) then i else e
    scanTags start_tag end_tag num_cells cs (i + 1) s' e'

/-- The warning message format string, instantiated; both warnings of the
source use the same `"start"` wording. -/
def warn_msg (tag : List Char) : List Char :=
  "No cell with start content: ".data ++ tag ++ " found".data

/-- `filter_start_end`: returns the filtered notebook together with the list
of warning messages the call logs.  When both tags are `None` the notebook is
returned unchanged with no warnings; otherwise the scan records the two
indices, not-found warnings are emitted for truthy tags whose recorded index
still equals its default, and the cells are replaced by the Python slice
`cells[start:end]`. -/
def filter_start_end (nb : Notebook)
    (start_tag end_tag : Option (List Char) := none) :
    Notebook × List (List Char) :=
  if start_tag = none ∧ end_tag = none then (nb, [])
  else
    let num_cells := nb.cells.length
    let se := scanTags start_tag end_tag num_cells nb.cells 0 0 num_cells
    let warns :=
      (if tagTruthy start_tag && (se.1 == 0) then
        [warn_msg (start_tag.getD [])] else []) ++
      (if tagTruthy end_tag && (se.2 == num_cells) then
        [warn_msg (end_tag.getD [])] else [])
    (⟨(nb.cells.drop se.1).take (se.2 - se.1)⟩, warns)

/-! ### Index functions describing the observed scan behaviour

These two definitions follow the words of the amended description of the
scan, to be compared with the embedded loop: the recorded start index is the
first matching index among cells at positive positions (a match at cell 0
leaves the default 0 in place and does not stop later matches from being
recorded), while the recorded end index is the first matching index
overall. -/

/-- Amended-claim start index: first matching positive index, default 0. -/
def startIdxAmended (t : List Char) : List Cell → Nat → Nat
  | [], _ => 0
  | c :: cs, i =>
    if i != 0 && containsSub t c.source then i else startIdxAmended t cs (i + 1)

/-- Amended-claim end index: first matching index, default `dflt`. -/
def endIdxAmended (t : List Char) (dflt : Nat) : List Cell → Nat → Nat
  | [], _ => dflt
  | c :: cs, i =>
    if containsSub t c.source then i else endIdxAmended t dflt cs (i + 1)

end JupyterUtils

namespace JupyterUtils

/-! ### Helper lemmas -/

theorem list_not_isEmpty {l : List Char} (h : l ≠ []) : l.isEmpty = false := by
  cases l with
  | nil => exact absurd rfl h
  | cons a as => rfl

theorem nat_beq_eq_false {a b : Nat} (h : a ≠ b) : (a == b) = false := by
  simpa using h

theorem tagMatches_some {t : List Char} (h : t ≠ []) (c : Cell) :
    tagMatches (some t) c = containsSub t c.source := by
  simp [tagMatches, list_not_isEmpty h]

/-! ### Lemmas about the scan loop of `filter_start_end` -/

theorem scanTags_fst_frozen (st et : Option (List Char)) (n : Nat) :
    ∀ (cells : List Cell) (i s e : Nat), s ≠ 0 →
      (scanTags st et n cells i s e).1 = s := by
  intro cells
  induction cells with
  | nil => intro i s e _; simp [scanTags]
  | cons c cs ih =>
    intro i s e hs
    simp only [scanTags, nat_beq_eq_false hs, Bool.and_false]
    exact ih _ _ _ hs

theorem scanTags_snd_frozen (st et : Option (List Char)) (n : Nat) :
    ∀ (cells : List Cell) (i s e : Nat), e ≠ n →
      (scanTags st et n cells i s e).2 = e := by
  intro cells
  induction cells with
  | nil => intro i s e _; simp [scanTags]
  | cons c cs ih =>
    intro i s e he
    simp only [scanTags, nat_beq_eq_false he, Bool.and_false]
    exact ih _ _ _ he

theorem scanTags_fst_char (et : Option (List Char)) (n : Nat)
    (st : List Char) (hst : st ≠ []) :
    ∀ (cells : List Cell) (i e : Nat),
      (scanTags (some st) et n cells i 0 e).1 = startIdxAmended st cells i := by
  intro cells
  induction cells with
  | nil => intro i e; simp [scanTags, startIdxAmended]
  | cons c cs ih =>
    intro i e
    simp only [scanTags, startIdxAmended, tagMatches_some hst]
    by_cases hc : containsSub st c.source
    · cases i with
      | zero =>
        simp only [hc, Bool.true_and, beq_self_eq_true, Bool.and_true, if_true,
          bne_self_eq_false, Bool.false_and, Bool.false_eq_true, if_false]
        exact ih 1 _
      | succ k =>
        have hkz : (k + 1 : Nat) ≠ 0 := Nat.succ_ne_zero k
        have hbne : ((k + 1 : Nat) != 0) = true := rfl
        simp only [hc, Bool.true_and, beq_self_eq_true, Bool.and_true, if_true,
          hbne]
        exact scanTags_fst_frozen _ _ _ _ _ _ _ hkz
    · have hc' : containsSub st c.source = false := by simpa using hc
      simp only [hc', Bool.false_and, Bool.and_false, Bool.false_eq_true,
        if_false]
      exact ih (i + 1) _

theorem scanTags_snd_char (st : Option (List Char)) (n : Nat)
    (et : List Char) (het : et ≠ []) :
    ∀ (cells : List Cell) (i s : Nat), i + cells.length ≤ n →
      (scanTags st (some et) n cells i s n).2 = endIdxAmended et n cells i := by
  intro cells
  induction cells with
  | nil => intro i s _; simp [scanTags, endIdxAmended]
  | cons c cs ih =>
    intro i s hb
    simp only [scanTags, endIdxAmended, tagMatches_some het]
    by_cases hc : containsSub et c.source
    · have hin : i ≠ n := by
        simp only [List.length_cons] at hb
        omega
      simp only [hc, Bool.true_and, beq_self_eq_true, Bool.and_true, if_true]
      exact scanTags_snd_frozen _ _ _ _ _ _ _ hin
    · have hc' : containsSub et c.source = false := by simpa using hc
      simp only [hc', Bool.false_and, Bool.false_eq_true, if_false]
      refine ih (i + 1) _ ?_
      simp only [List.length_cons] at hb
      omega

theorem scanTags_fst_none (et : Option (List Char)) (n : Nat) :
    ∀ (cells : List Cell) (i s e : Nat),
      (scanTags none et n cells i s e).1 = s := by
  intro cells
  induction cells with
  | nil => intro i s e; simp [scanTags]
  | cons c cs ih =>
    intro i s e
    simp only [scanTags, tagMatches, Bool.false_and, Bool.false_eq_true,
      if_false]
    exact ih _ _ _

theorem scanTags_snd_none (st : Option (List Char)) (n : Nat) :
    ∀ (cells : List Cell) (i s e : Nat),
      (scanTags st none n cells i s e).2 = e := by
  intro cells
  induction cells with
  | nil => intro i s e; simp [scanTags]
  | cons c cs ih =>
    intro i s e
    simp only [scanTags, tagMatches, Bool.false_and, Bool.false_eq_true,
      if_false]
    exact ih _ _ _

theorem scanTags_fst_nomatch (et : Option (List Char)) (n : Nat)
    (st : List Char) :
    ∀ (cells : List Cell) (i s e : Nat),
      (∀ c ∈ cells, containsSub st c.source = false) →
      (scanTags (some st) et n cells i s e).1 = s := by
  intro cells
  induction cells with
  | nil => intro i s e _; simp [scanTags]
  | cons c cs ih =>
    intro i s e hno
    have hc : containsSub st c.source = false := hno c (by simp)
    simp only [scanTags, tagMatches, hc, Bool.and_false, Bool.false_and,
      Bool.false_eq_true, if_false]
    exact ih _ _ _ (fun c' hc' => hno c' (by simp [hc']))

theorem scanTags_snd_nomatch (st : Option (List Char)) (n : Nat)
    (et : List Char) :
    ∀ (cells : List Cell) (i s e : Nat),
      (∀ c ∈ cells, containsSub et c.source = false) →
      (scanTags st (some et) n cells i s e).2 = e := by
  intro cells
  induction cells with
  | nil => intro i s e _; simp [scanTags]
  | cons c cs ih =>
    intro i s e hno
    have hc : containsSub et c.source = false := hno c (by simp)
    simp only [scanTags, tagMatches, hc, Bool.and_false, Bool.false_and,
      Bool.false_eq_true, if_false]
    exact ih _ _ _ (fun c' hc' => hno c' (by simp [hc']))

theorem scanTags_empty_tags (n : Nat) :
    ∀ (cells : List Cell) (i s e : Nat),
      scanTags (some []) (some []) n cells i s e = (s, e) := by
  intro cells
  induction cells with
  | nil => intro i s e; simp [scanTags]
  | cons c cs ih =>
    intro i s e
    simp only [scanTags, tagMatches, List.isEmpty_nil, Bool.not_true,
      Bool.false_and, Bool.false_eq_true, if_false]
    exact ih _ _ _

/-! ### Claims about `filter_start_end` -/

/-- C6: for every document D, `filter_start_end(D, None, None)` — both tags
absent — returns D unchanged, with no warning emitted. -/
theorem filter_start_end_none_none (nb : Notebook) :
    filter_start_end nb none none = (nb, []) := by
  simp [filter_start_end]

/-- C10: calling `filter_start_end(D, "", "")` with empty-string (non-null)
tags skips the early return, but because empty strings are falsy every match
test and warning guard is skipped, so the whole cell sequence is kept and no
warning is emitted. -/
theorem filter_start_end_empty_tags (nb : Notebook) :
    filter_start_end nb (some []) (some []) = (nb, []) := by
  have hscan :=
    scanTags_empty_tags nb.cells.length nb.cells 0 0 nb.cells.length
  simp only [filter_start_end]
  rw [if_neg (by simp)]
  rw [hscan]
  simp [tagTruthy, List.take_length]

/-- C5: a non-null, non-empty tag that matches no cell leaves the default
boundary in place (0 for start, the cell count for end), keeps the whole
document, and emits exactly one warning diagnostic; the call returns
normally. -/
theorem filter_start_end_tag_not_found (nb : Notebook) (t : List Char)
    (ht : t ≠ []) (hno : ∀ c ∈ nb.cells, containsSub t c.source = false) :
    filter_start_end nb (some t) none = (nb, [warn_msg t]) ∧
    filter_start_end nb none (some t) = (nb, [warn_msg t]) := by
  constructor
  · have h1 := scanTags_fst_nomatch none nb.cells.length t nb.cells
      0 0 nb.cells.length hno
    have h2 := scanTags_snd_none (some t) nb.cells.length nb.cells
      0 0 nb.cells.length
    simp only [filter_start_end]
    rw [if_neg (by simp)]
    rw [h1, h2]
    simp [tagTruthy, list_not_isEmpty ht, List.take_length]
  · have h1 := scanTags_fst_none (some t) nb.cells.length nb.cells
      0 0 nb.cells.length
    have h2 := scanTags_snd_nomatch none nb.cells.length t nb.cells
      0 0 nb.cells.length hno
    simp only [filter_start_end]
    rw [if_neg (by simp)]
    rw [h1, h2]
    simp [tagTruthy, list_not_isEmpty ht, List.take_length]

/-- C5 witness: on a two-cell document with no cell containing "A", the
filter keeps both cells and warns, for the start tag and for the end tag. -/
theorem filter_start_end_tag_not_found_witness :
    filter_start_end ⟨[⟨"a".data⟩, ⟨"b".data⟩]⟩ (some "A".data) none
      = (⟨[⟨"a".data⟩, ⟨"b".data⟩]⟩, [warn_msg "A".data]) ∧
    filter_start_end ⟨[⟨"a".data⟩, ⟨"b".data⟩]⟩ none (some "A".data)
      = (⟨[⟨"a".data⟩, ⟨"b".data⟩]⟩, [warn_msg "A".data]) :=
  filter_start_end_tag_not_found ⟨[⟨"a".data⟩, ⟨"b".data⟩]⟩ "A".data
    (by decide) (by decide)

/-- C7: whenever the recorded start index is at least the recorded end index
the filtered cell sequence is empty; the function is total (no exception),
and in a concrete reversed-tags document where both tags are found, no
warning at all is emitted. -/
theorem filter_start_end_reversed_empty (nb : Notebook)
    (st et : Option (List Char))
    (h : (scanTags st et nb.cells.length nb.cells 0 0 nb.cells.length).2 ≤
         (scanTags st et nb.cells.length nb.cells 0 0 nb.cells.length).1) :
    (filter_start_end nb st et).1.cells = [] ∧
    filter_start_end ⟨[⟨"B".data⟩, ⟨"A".data⟩]⟩ (some "A".data)
        (some "B".data) = (⟨[]⟩, []) := by
  refine ⟨?_, by decide⟩
  by_cases hb : st = none ∧ et = none
  · obtain ⟨hs, he⟩ := hb
    subst hs; subst he
    rw [scanTags_snd_none, scanTags_fst_none] at h
    simp only [filter_start_end, and_self, if_pos]
    exact List.length_eq_zero.mp (Nat.le_zero.mp h)
  · simp only [filter_start_end]
    rw [if_neg hb]
    simp only [Nat.sub_eq_zero_of_le h, List.take_zero]

/-- C7 witness: a document whose end tag matches before its start tag yields
the empty sequence with no warnings. -/
theorem filter_start_end_reversed_empty_witness :
    (filter_start_end ⟨[⟨"B".data⟩, ⟨"A".data⟩]⟩ (some "A".data)
        (some "B".data)).1.cells = [] :=
  (filter_start_end_reversed_empty ⟨[⟨"B".data⟩, ⟨"A".data⟩]⟩
    (some "A".data) (some "B".data) (by decide)).1

/-- C1 counterexample: in a document whose first cell contains the start tag
and whose third cell contains it again (end tag absent everywhere), the claim
predicts the whole sequence `[0, 3)`, but the code records start index 2 and
keeps only the last cell. -/
theorem filter_start_end_first_match_cex :
    (filter_start_end ⟨[⟨"S".data⟩, ⟨"x".data⟩, ⟨"S".data⟩]⟩
        (some "S".data) (some "E".data)).1.cells = [⟨"S".data⟩] ∧
    [Cell.mk "S".data] ≠ [⟨"S".data⟩, ⟨"x".data⟩, ⟨"S".data⟩] := by
  decide

/-- C1 amended: for non-empty tags, the recorded start index is the first
matching index among cells at positive positions (a match at cell 0 leaves
the default 0 in place and does not stop a later match from being recorded),
the recorded end index is the index of the first cell containing the end tag
(default: the cell count), and the cell sequence becomes the half-open slice
between them. -/
theorem filter_start_end_trim_amended (nb : Notebook) (st et : List Char)
    (hst : st ≠ []) (het : et ≠ []) :
    (filter_start_end nb (some st) (some et)).1.cells =
      (nb.cells.drop (startIdxAmended st nb.cells 0)).take
        (endIdxAmended et nb.cells.length nb.cells 0 -
          startIdxAmended st nb.cells 0) := by
  have h1 := scanTags_fst_char (some et) nb.cells.length st hst nb.cells
    0 nb.cells.length
  have h2 := scanTags_snd_char (some st) nb.cells.length et het nb.cells
    0 0 (by omega)
  simp only [filter_start_end]
  rw [if_neg (by simp)]
  rw [h1, h2]

/-- C1 amended witness: on the counterexample document the amended indices
are 2 and 3, and the filter indeed keeps exactly the slice `[2, 3)`. -/
theorem filter_start_end_trim_amended_witness :
    (filter_start_end ⟨[⟨"S".data⟩, ⟨"x".data⟩, ⟨"S".data⟩]⟩
        (some "S".data) (some "E".data)).1.cells =
      (([⟨"S".data⟩, ⟨"x".data⟩, ⟨"S".data⟩] : List Cell).drop
          (startIdxAmended "S".data
            [⟨"S".data⟩, ⟨"x".data⟩, ⟨"S".data⟩] 0)).take
        (endIdxAmended "E".data 3
            [⟨"S".data⟩, ⟨"x".data⟩, ⟨"S".data⟩] 0 -
          startIdxAmended "S".data
            [⟨"S".data⟩, ⟨"x".data⟩, ⟨"S".data⟩] 0) :=
  filter_start_end_trim_amended ⟨[⟨"S".data⟩, ⟨"x".data⟩, ⟨"S".data⟩]⟩
    "S".data "E".data (by decide) (by decide)

/-! ### Claims about `RemoveCustomCSS` and the preprocess pipeline -/

theorem removeCSS_foldl_found :
    ∀ (cells : List Cell) (st : RemoveCustomCSSState), st.found = true →
      cells.foldl removeCustomCSS_process_cell st = st := by
  intro cells
  induction cells with
  | nil => intro st _; rfl
  | cons c cs ih =>
    intro st hf
    simp only [List.foldl_cons]
    have hstep : removeCustomCSS_process_cell st c = st := by
      simp [removeCustomCSS_process_cell, hf]
    rw [hstep]
    exact ih st hf

theorem removeCSS_foldl_reach :
    ∀ (cells : List Cell) (i k : Nat) (hi : i < cells.length),
      containsSub search_text (cells.get ⟨i, hi⟩).source = true →
      (∀ j (hj : j < cells.length), j < i →
        containsSub search_text (cells.get ⟨j, hj⟩).source = false) →
      cells.foldl removeCustomCSS_process_cell ⟨false, k⟩ = ⟨true, k + i⟩ := by
  intro cells
  induction cells with
  | nil => intro i k hi; exact absurd hi (by simp)
  | cons c cs ih =>
    intro i k hi hm hb
    cases i with
    | zero =>
      have hc : containsSub search_text c.source = true := hm
      simp only [List.foldl_cons]
      have hstep : removeCustomCSS_process_cell ⟨false, k⟩ c = ⟨true, k⟩ := by
        simp [removeCustomCSS_process_cell, hc]
      rw [hstep]
      exact removeCSS_foldl_found cs ⟨true, k⟩ rfl
    | succ j =>
      have hc : containsSub search_text c.source = false :=
        hb 0 (by simp) (Nat.succ_pos j)
      simp only [List.foldl_cons]
      have hstep : removeCustomCSS_process_cell ⟨false, k⟩ c
          = ⟨false, k + 1⟩ := by
        simp [removeCustomCSS_process_cell, hc]
      rw [hstep]
      have hj : j < cs.length := by
        simp only [List.length_cons] at hi
        omega
      have hrec := ih j (k + 1) hj hm
        (fun j' hj' hlt => hb (j' + 1) (by simpa using Nat.succ_lt_succ hj')
          (Nat.succ_lt_succ hlt))
      rw [hrec]
      congr 1
      omega

/-- C4: on a document in which exactly one cell, at index i, contains the
marker `from IPython.core.display import HTML`, the CSS-Stripper pipeline
(`preprocess` with `RemoveCustomCSS` plus its `finish`) deletes exactly the
cell that originally sat at index i, leaving one fewer cell; the recorded
index (the count of cells processed strictly before the match) equals i. -/
theorem preprocess_removeCSS_unique_marker (nb : Notebook) (i : Nat)
    (hi : i < nb.cells.length)
    (hm : containsSub search_text (nb.cells.get ⟨i, hi⟩).source = true)
    (ho : ∀ j (hj : j < nb.cells.length), j ≠ i →
      containsSub search_text (nb.cells.get ⟨j, hj⟩).source = false) :
    preprocess_removeCustomCSS nb = ⟨nb.cells.eraseIdx i⟩ ∧
    (preprocess_removeCustomCSS nb).cells.length + 1 = nb.cells.length ∧
    nb.cells.foldl removeCustomCSS_process_cell ⟨false, 0⟩ = ⟨true, i⟩ := by
  have hfold := removeCSS_foldl_reach nb.cells i 0 hi hm
    (fun j hj hlt => ho j hj (Nat.ne_of_lt hlt))
  rw [Nat.zero_add] at hfold
  have hmain : preprocess_removeCustomCSS nb = ⟨nb.cells.eraseIdx i⟩ := by
    simp [preprocess_removeCustomCSS, hfold, removeCustomCSS_finish]
  refine ⟨hmain, ?_, hfold⟩
  rw [hmain]
  have := List.length_eraseIdx_of_lt hi
  simp only [this]
  omega

/-- C4 witness: a five-cell document whose cell 3 alone contains the marker
loses exactly that cell. -/
theorem preprocess_removeCSS_unique_marker_witness :
    preprocess_removeCustomCSS
        ⟨[⟨"a".data⟩, ⟨"b".data⟩, ⟨"c".data⟩, ⟨search_text⟩, ⟨"e".data⟩]⟩ =
      ⟨([⟨"a".data⟩, ⟨"b".data⟩, ⟨"c".data⟩, ⟨search_text⟩,
          ⟨"e".data⟩] : List Cell).eraseIdx 3⟩ :=
  (preprocess_removeCSS_unique_marker
    ⟨[⟨"a".data⟩, ⟨"b".data⟩, ⟨"c".data⟩, ⟨search_text⟩, ⟨"e".data⟩]⟩ 3
    (by decide) (by decide) (by decide)).1


/-! ### Lemmas about Python `str.replace` -/

theorem containsSub_of_isPrefixOf {pat : List Char} :
    ∀ {s : List Char}, pat.isPrefixOf s = true → containsSub pat s = true := by
  intro s hp
  cases s with
  | nil => simpa [containsSub] using hp
  | cons c cs => simp [containsSub, hp]

theorem replaceAllAux_skip (pat rep : List Char) :
    ∀ (k : Nat) (s : List Char),
      replaceAllAux pat rep k s = replaceAllAux pat rep 0 (s.drop k) := by
  intro k
  induction k with
  | zero => intro s; simp
  | succ k ih =>
    intro s
    cases s with
    | nil => simp [replaceAllAux]
    | cons c cs => simpa [replaceAllAux] using ih cs

theorem replaceAll_nocontain (pat rep : List Char) :
    ∀ (s : List Char), containsSub pat s = false →
      replaceAll pat rep s = s := by
  intro s
  induction s with
  | nil => intro _; rfl
  | cons c cs ih =>
    intro h
    simp only [containsSub, Bool.or_eq_false_iff] at h
    obtain ⟨h1, h2⟩ := h
    simp only [replaceAll, replaceAllAux, h1, Bool.and_false,
      Bool.false_eq_true, if_false]
    exact congrArg (c :: ·) (ih h2)

theorem replaceAllAux_self (p : List Char) :
    ∀ (n : Nat) (s : List Char), s.length ≤ n →
      replaceAllAux p p 0 s = s := by
  intro n
  induction n with
  | zero =>
    intro s hs
    have hnil : s = [] := List.length_eq_zero.mp (Nat.le_zero.mp hs)
    subst hnil
    rfl
  | succ n ih =>
    intro s hs
    cases s with
    | nil => rfl
    | cons c cs =>
      by_cases hcond : (!p.isEmpty && p.isPrefixOf (c :: cs)) = true
      · obtain ⟨hpe, hpp⟩ := Bool.and_eq_true_iff.mp hcond
        cases p with
        | nil => simp at hpe
        | cons q qs =>
          obtain ⟨t, ht⟩ := List.isPrefixOf_iff_prefix.mp hpp
          have hcs : cs = qs ++ t := by
            simp only [List.cons_append] at ht
            exact (List.cons.injEq _ _ _ _ |>.mp ht).2.symm
          simp only [replaceAllAux, hcond, if_true]
          rw [replaceAllAux_skip]
          have hdrop : cs.drop ((q :: qs).length - 1) = t := by
            rw [hcs]
            simp only [List.length_cons, Nat.add_sub_cancel]
            exact List.drop_left qs t
          rw [hdrop]
          have hlen : t.length ≤ n := by
            have h1 : cs.length ≤ n := by
              simp only [List.length_cons] at hs
              omega
            rw [hcs] at h1
            simp only [List.length_append] at h1
            omega
          rw [ih t hlen]
          exact ht
      · have hcond' : (!p.isEmpty && p.isPrefixOf (c :: cs)) = false :=
          Bool.not_eq_true _ |>.mp hcond
        simp only [replaceAllAux, hcond', Bool.false_eq_true, if_false]
        refine congrArg (c :: ·) (ih cs ?_)
        simp only [List.length_cons] at hs
        omega

theorem emptyPatReplace_nil : ∀ (s : List Char), emptyPatReplace [] s = s := by
  intro s
  induction s with
  | nil => rfl
  | cons c cs ih => simp [emptyPatReplace, ih]

theorem pyReplace_self (p s : List Char) : pyReplace p p s = s := by
  by_cases hp : p = []
  · subst hp
    simp [pyReplace, emptyPatReplace_nil]
  · unfold pyReplace
    rw [if_neg hp]
    exact replaceAllAux_self p s.length s (Nat.le_refl _)

theorem replaceAll_append_pat (pat rep : List Char) (hp : pat ≠ []) :
    ∀ (a b : List Char),
      containsSub pat (a ++ pat.dropLast) = false →
      replaceAll pat rep (a ++ (pat ++ b)) =
        a ++ rep ++ replaceAll pat rep b := by
  intro a
  induction a with
  | nil =>
    intro b _
    cases pat with
    | nil => exact absurd rfl hp
    | cons q qs =>
      have hpre : (q :: qs).isPrefixOf (q :: (qs ++ b)) = true :=
        List.isPrefixOf_iff_prefix.mpr ⟨b, by simp⟩
      simp only [List.nil_append, List.cons_append, List.append_eq,
        replaceAll, replaceAllAux, hpre, List.isEmpty_cons, Bool.not_false,
        Bool.true_and, if_true]
      rw [replaceAllAux_skip]
      simp only [List.length_cons, Nat.add_sub_cancel]
      rw [List.drop_left qs b]
  | cons c a' ih =>
    intro b hno
    rw [List.cons_append] at hno
    simp only [containsSub, Bool.or_eq_false_iff] at hno
    obtain ⟨h1, h2⟩ := hno
    have hnp : pat.isPrefixOf (c :: (a' ++ (pat ++ b))) = false := by
      by_contra hcon
      have hcon' : pat.isPrefixOf (c :: (a' ++ (pat ++ b))) = true := by
        simpa using hcon
      have hpre : pat <+: (c :: (a' ++ (pat ++ b))) :=
        List.isPrefixOf_iff_prefix.mp hcon'
      obtain ⟨d, hd⟩ : ∃ d, pat.dropLast ++ [d] = pat :=
        ⟨_, List.dropLast_concat_getLast hp⟩
      have hpre2 : (c :: (a' ++ pat.dropLast)) <+: (c :: (a' ++ (pat ++ b))) := by
        refine ⟨[d] ++ b, ?_⟩
        conv_rhs => rw [← hd]
        simp [List.cons_append, List.append_assoc]
      have hlen : pat.length ≤ (c :: (a' ++ pat.dropLast)).length := by
        simp only [List.length_cons, List.length_append, List.length_dropLast]
        have hone : 1 ≤ pat.length := by
          cases pat with
          | nil => exact absurd rfl hp
          | cons _ _ => simp
        omega
      have hpp := List.prefix_of_prefix_length_le hpre hpre2 hlen
      have htrue : containsSub pat (c :: (a' ++ pat.dropLast)) = true :=
        containsSub_of_isPrefixOf (List.isPrefixOf_iff_prefix.mpr hpp)
      have hfalse : containsSub pat (c :: (a' ++ pat.dropLast)) = false := by
        simp [containsSub, h1, h2]
      rw [htrue] at hfalse
      simp at hfalse
    simp only [List.cons_append, List.append_eq, replaceAll, replaceAllAux,
      hnp, Bool.and_false, Bool.false_eq_true, if_false]
    have hrec : replaceAllAux pat rep 0 (a' ++ (pat ++ b))
        = a' ++ rep ++ replaceAll pat rep b := ih b h2
    rw [hrec]
    simp [replaceAll, List.cons_append, List.append_assoc]

/-- C8: `remove_box_shadow` replaces every literal occurrence of
`#notebook-container` by `#doesnotexisthere` and leaves all surrounding
characters untouched: a string without the selector is returned unchanged,
an occurrence with a clean left context is rewritten in place with the
remainder processed recursively, and a concrete two-occurrence input is fully
rewritten. -/
theorem remove_box_shadow_spec :
    (∀ s : List Char, containsSub notebookContainer s = false →
      remove_box_shadow s = s) ∧
    (∀ a b : List Char,
      containsSub notebookContainer (a ++ notebookContainer.dropLast) = false →
      remove_box_shadow (a ++ notebookContainer ++ b) =
        a ++ "#doesnotexisthere".data ++ remove_box_shadow b) ∧
    remove_box_shadow "a #notebook-container b #notebook-container".data =
      "a #doesnotexisthere b #doesnotexisthere".data := by
  refine ⟨?_, ?_, by decide⟩
  · intro s h
    unfold remove_box_shadow pyReplace
    rw [if_neg (by decide)]
    exact replaceAll_nocontain _ _ s h
  · intro a b h
    unfold remove_box_shadow pyReplace
    rw [if_neg (by decide), if_neg (by decide)]
    rw [List.append_assoc]
    exact replaceAll_append_pat notebookContainer _ (by decide) a b h

/-- C8 witness: the no-occurrence case and the in-place rewrite case hold at
concrete inputs. -/
theorem remove_box_shadow_spec_witness :
    remove_box_shadow "plain text".data = "plain text".data ∧
    remove_box_shadow ("x ".data ++ notebookContainer ++ " y".data) =
      "x ".data ++ "#doesnotexisthere".data ++ remove_box_shadow " y".data :=
  ⟨remove_box_shadow_spec.1 "plain text".data (by decide),
   remove_box_shadow_spec.2.1 "x ".data " y".data (by decide)⟩

/-! ### Claims about `ImageReplacement.process_cell` -/

theorem imageReplacement_foldl_fixed (B : List Char) :
    ∀ (ms : List (List Char)) (src : List Char),
      (∀ m ∈ ms, B ++ splitSlashLast m = m) →
      ms.foldl (fun src m => pyReplace m (B ++ splitSlashLast m) src) src
        = src := by
  intro ms
  induction ms with
  | nil => intro src _; rfl
  | cons m ms ih =>
    intro src h
    simp only [List.foldl_cons]
    rw [h m (by simp), pyReplace_self]
    exact ih src (fun m' hm' => h m' (by simp [hm']))

/-- C9 (amended): a second application of the image rewriter with the same
base is a no-op provided every src value matched in the once-rewritten source
is a fixed point of the rewrite (its base-plus-filename form equals itself,
as happens when the base ends in a slash); the original claim's weaker
proviso — that the pre-rewrite src strings no longer occur — is not
sufficient. -/
theorem imageReplacement_second_pass_noop (B : List Char) (c : Cell)
    (h : ∀ m ∈ findallImg (imageReplacement_process_cell B c).source,
      B ++ splitSlashLast m = m) :
    imageReplacement_process_cell B (imageReplacement_process_cell B c) =
      imageReplacement_process_cell B c := by
  show Cell.mk
      ((findallImg (imageReplacement_process_cell B c).source).foldl
        (fun src m => pyReplace m (B ++ splitSlashLast m) src)
        (imageReplacement_process_cell B c).source)
    = imageReplacement_process_cell B c
  rw [imageReplacement_foldl_fixed B _ _ h]

/-- C9 witness: with base `http://y/` (trailing slash) the matched value of
the rewritten cell is a fixed point, and the second pass changes nothing. -/
theorem imageReplacement_second_pass_noop_witness :
    imageReplacement_process_cell "http://y/".data
        (imageReplacement_process_cell "http://y/".data
          ⟨"<img src=\"http://x/a.png\">".data⟩) =
      imageReplacement_process_cell "http://y/".data
        ⟨"<img src=\"http://x/a.png\">".data⟩ :=
  imageReplacement_second_pass_noop "http://y/".data
    ⟨"<img src=\"http://x/a.png\">".data⟩ (by decide)

/-- C9 counterexample: with base `http://y` (no trailing slash) the original
src string `http://x/a.png` no longer occurs after the first pass — the
claim's proviso holds — yet the second application still changes the cell
(`http://ya.png` becomes `http://yya.png`). -/
theorem imageReplacement_not_idempotent_cex :
    containsSub "http://x/a.png".data
        (imageReplacement_process_cell "http://y".data
          ⟨"<img src=\"http://x/a.png\">".data⟩).source = false ∧
    imageReplacement_process_cell "http://y".data
        (imageReplacement_process_cell "http://y".data
          ⟨"<img src=\"http://x/a.png\">".data⟩) ≠
      imageReplacement_process_cell "http://y".data
        ⟨"<img src=\"http://x/a.png\">".data⟩ := by
  decide

/-- C3 counterexample: with two img tags on one line the claim predicts both
src values found and rewritten, but the greedy gap of the pattern makes only
the last one match, and the first tag's value stays unchanged. -/
theorem imageReplacement_same_line_cex :
    findallImg "<img src=\"a.png\"><img src=\"b.png\">".data
      = ["b.png".data] ∧
    imageReplacement_process_cell "U/".data
        ⟨"<img src=\"a.png\"><img src=\"b.png\">".data⟩ =
      ⟨"<img src=\"a.png\"><img src=\"U/b.png\">".data⟩ ∧
    "<img src=\"a.png\"><img src=\"U/b.png\">".data ≠
      "<img src=\"U/a.png\"><img src=\"U/b.png\">".data := by
  decide

/-- C3 (amended): the rewriter finds the src values located by the regex
scan — when several img tags share one line only the last src value of that
line is matched, while tags on separate lines are each matched — and every
literal occurrence of each found value (also outside the tag) is replaced by
base_url plus the substring after the value's last slash. -/
theorem imageReplacement_process_cell_amended :
    findallImg ("<img src=\"a.png\">\n<img src=\"b.png\">".data)
      = ["a.png".data, "b.png".data] ∧
    imageReplacement_process_cell "U/".data
        ⟨"<img src=\"a.png\">\n<img src=\"b.png\">".data⟩ =
      ⟨"<img src=\"U/a.png\">\n<img src=\"U/b.png\">".data⟩ ∧
    imageReplacement_process_cell "U/".data
        ⟨"<img src=\"pics/z.png\"> and pics/z.png again".data⟩ =
      ⟨"<img src=\"U/z.png\"> and U/z.png again".data⟩ := by
  decide

/-! ### Claims about `insert_target_blank` -/

/-- C2 counterexample: the anchor pattern `<a .+?>` requires a space and at
least one further character before the closing `>`, so the no-attribute tag
`<a>` is not matched and is returned unchanged, while the claim predicts an
injected target attribute. -/
theorem insert_target_blank_no_attr_cex :
    insert_target_blank "<a>hi</a>".data = "<a>hi</a>".data ∧
    "<a>hi</a>".data ≠ "<a target=\"_blank\" >hi</a>".data := by
  decide

theorem scanStop_decomp (stop : Char) :
    ∀ (l mid rest : List Char), scanStop stop l = some (mid, rest) →
      l = mid ++ stop :: rest := by
  intro l
  induction l with
  | nil => intro mid rest h; simp [scanStop] at h
  | cons c cs ih =>
    intro mid rest h
    simp only [scanStop] at h
    by_cases h1 : c = stop
    · rw [if_pos h1] at h
      have hp := Option.some.inj h
      have hm : mid = [] := (congrArg Prod.fst hp).symm
      have hr : rest = cs := (congrArg Prod.snd hp).symm
      subst hm; subst hr; subst h1
      simp
    · rw [if_neg h1] at h
      by_cases h2 : c = '\n'
      · rw [if_pos h2] at h
        exact Option.noConfusion h
      · rw [if_neg h2] at h
        cases hsc : scanStop stop cs with
        | none => rw [hsc] at h; exact Option.noConfusion h
        | some p =>
          obtain ⟨m, r⟩ := p
          rw [hsc] at h
          have hp := Option.some.inj h
          have hm : mid = c :: m := (congrArg Prod.fst hp).symm
          have hr : rest = r := (congrArg Prod.snd hp).symm
          subst hm; subst hr
          rw [List.cons_append, ih _ _ hsc]

theorem scanStop_clean (stop : Char) :
    ∀ (as suffix : List Char), (∀ ch ∈ as, ch ≠ stop ∧ ch ≠ '\n') →
      scanStop stop (as ++ stop :: suffix) = some (as, suffix) := by
  intro as
  induction as with
  | nil => intro suffix _; simp [scanStop]
  | cons a as ih =>
    intro suffix h
    obtain ⟨h1, h2⟩ := h a (by simp)
    simp only [List.cons_append, List.append_eq, scanStop, if_neg h1,
      if_neg h2]
    rw [ih suffix (fun ch hch => h ch (by simp [hch]))]

theorem matchATag_rest_length (l m rest : List Char)
    (h : matchATag l = some (m, rest)) : rest.length < l.length := by
  rw [matchATag.eq_def] at h
  split at h
  next c cs =>
    by_cases h2 : c = '\n'
    · rw [if_pos h2] at h
      exact Option.noConfusion h
    · rw [if_neg h2] at h
      cases hsc : scanStop '>' cs with
      | none => rw [hsc] at h; exact Option.noConfusion h
      | some p =>
        obtain ⟨mid, r⟩ := p
        rw [hsc] at h
        have hp := Option.some.inj h
        have hr : rest = r := (congrArg Prod.snd hp).symm
        have hdec := scanStop_decomp '>' cs mid r hsc
        rw [hr, hdec]
        simp only [List.length_cons, List.length_append]
        omega
  next => exact Option.noConfusion h

theorem subATagsAux_fuel_succ :
    ∀ (f : Nat) (l : List Char), l.length ≤ f →
      subATagsAux (f + 1) l = subATagsAux f l := by
  intro f
  induction f using Nat.strong_induction_on with
  | _ f ih =>
    intro l hl
    cases l with
    | nil =>
      cases f with
      | zero => rfl
      | succ f' => rfl
    | cons c cs =>
      cases f with
      | zero => simp at hl
      | succ f' =>
        simp only [subATagsAux]
        cases hm : matchATag (c :: cs) with
        | none =>
          have hcs : cs.length ≤ f' := by
            simp only [List.length_cons] at hl
            omega
          show c :: subATagsAux (f' + 1) cs = c :: subATagsAux f' cs
          rw [ih f' (Nat.lt_succ_self f') cs hcs]
        | some p =>
          obtain ⟨m, rest⟩ := p
          have hrl : rest.length < (c :: cs).length :=
            matchATag_rest_length _ _ _ hm
          have hrest : rest.length ≤ f' := by
            simp only [List.length_cons] at hl hrl
            omega
          show matchFn m ++ subATagsAux (f' + 1) rest
            = matchFn m ++ subATagsAux f' rest
          rw [ih f' (Nat.lt_succ_self f') rest hrest]

theorem subATagsAux_fuel :
    ∀ (f : Nat) (l : List Char), l.length ≤ f →
      subATagsAux f l = insert_target_blank l := by
  intro f
  induction f with
  | zero =>
    intro l hl
    have hnil : l = [] := List.length_eq_zero.mp (Nat.le_zero.mp hl)
    subst hnil
    rfl
  | succ f ih =>
    intro l hl
    by_cases h : l.length ≤ f
    · rw [subATagsAux_fuel_succ f l h, ih l h]
    · have hlen : l.length = f + 1 := by omega
      unfold insert_target_blank
      rw [hlen]

theorem insert_target_blank_tag (attrs suffix : List Char)
    (hne : attrs ≠ []) (hok : ∀ ch ∈ attrs, ch ≠ '>' ∧ ch ≠ '\n') :
    insert_target_blank ("<a ".data ++ attrs ++ ('>' :: suffix)) =
      "<a target=\"_blank\" ".data ++ attrs ++
        ('>' :: insert_target_blank suffix) := by
  cases attrs with
  | nil => exact absurd rfl hne
  | cons a0 as =>
    obtain ⟨ha1, ha2⟩ := hok a0 (by simp)
    have hdata : "<a ".data = ['<', 'a', ' '] := rfl
    have hdata2 : "<a target=\"_blank\" ".data
        = '<' :: 'a' :: targetBlankAttr := rfl
    have hfull : "<a ".data ++ (a0 :: as) ++ ('>' :: suffix)
        = '<' :: 'a' :: ' ' :: a0 :: (as ++ '>' :: suffix) := by
      rw [hdata]
      simp
    rw [hfull]
    have hmatch : matchATag ('<' :: 'a' :: ' ' :: a0 :: (as ++ '>' :: suffix))
        = some ('<' :: 'a' :: ' ' :: a0 :: (as ++ ['>']), suffix) := by
      simp only [matchATag, if_neg ha2]
      rw [scanStop_clean '>' as suffix
        (fun ch hch => hok ch (by simp [hch]))]
    unfold insert_target_blank
    simp only [List.length_cons, subATagsAux, hmatch]
    rw [subATagsAux_fuel _ suffix (by simp [List.length_append]; omega),
      subATagsAux_fuel suffix.length suffix (Nat.le_refl _)]
    simp only [matchFn, hdata2]
    simp [targetBlankAttr, List.cons_append, List.append_assoc]

/-- C2 (amended): every substring of the form `<a ` plus a non-empty run of
attribute characters lazily up to the first `>` is rewritten to its first two
characters, the injected ` target=\"_blank\" ` attribute, and its characters
from index 3 on, with the rest of the string processed recursively; anchor
tags with no attributes do not match and are left unchanged; the claim's
concrete example rewrites exactly as stated. -/
theorem insert_target_blank_amended :
    (∀ (attrs suffix : List Char), attrs ≠ [] →
      (∀ ch ∈ attrs, ch ≠ '>' ∧ ch ≠ '\n') →
      insert_target_blank ("<a ".data ++ attrs ++ ('>' :: suffix)) =
        "<a target=\"_blank\" ".data ++ attrs ++
          ('>' :: insert_target_blank suffix)) ∧
    insert_target_blank "<a>hi</a>".data = "<a>hi</a>".data ∧
    insert_target_blank "<a href=\"x\">hi</a>".data =
      "<a target=\"_blank\" href=\"x\">hi</a>".data ∧
    insert_target_blank "<a x>".data = "<a target=\"_blank\" x>".data :=
  ⟨insert_target_blank_tag, by decide, by decide, by decide⟩

/-- C2 (amended) witness: the family statement instantiated at the claim's
concrete example. -/
theorem insert_target_blank_amended_witness :
    insert_target_blank
        ("<a ".data ++ "href=\"x\"".data ++ ('>' :: "hi</a>".data)) =
      "<a target=\"_blank\" ".data ++ "href=\"x\"".data ++
        ('>' :: insert_target_blank "hi</a>".data) :=
  insert_target_blank_amended.1 "href=\"x\"".data "hi</a>".data
    (by decide) (by decide)

end JupyterUtils
